import Mathlib

/-!
Shallow embedding of `pyglmnet/datasets.py` (dataset download, caching and
the group-lasso feature encoder), together with theorems settling the
specification claims about it.

Conventions of the embedding:
* Python lists become Lean `List`s; `itertools.combinations` and
  `itertools.combinations_with_replacement` are translated as recursive
  functions producing tuples in the same lexicographic-by-position order.
* A Python `set` of characters becomes a `Finset Char` (`List.toFinset`);
  Python set equality is `Finset` equality.
* `list.index`, which raises `ValueError` when the element is absent, is
  translated as `listIndex : List α → α → Option Nat` returning `none` in
  that case; code that can raise therefore returns `Option`/a result type.
* `scipy.special.comb n k` on the small integer arguments used here is
  exact, and is translated as `Nat.choose n k`; with `repetition=True` it
  computes `comb (n + k - 1) k`, translated accordingly.
* Feature values `0.0` / `1.0` are represented as the naturals `0` / `1`.
* The filesystem is a record `FS` of the existing file names in the data
  directory plus a log of the downloads performed (`urlretrieve` appends to
  both); directory existence of the data dir itself is guaranteed by
  `get_data_home` before the fetchers run, so it is not tracked separately.
* `numpy` fancy assignment `v[idxs] = 1.0` is translated as repeated
  `List.set`, which is total; on the inputs considered in the theorems all
  written indices are in bounds, so no behaviour is lost.
-/

/-- `itertools.combinations l n`: all length-`n` subsequences of `l`,
in the order Python emits them (lexicographic by position). -/
def combinations {α : Type} : Nat → List α → List (List α)
  | 0, _ => [[]]
  | _ + 1, [] => []
  | n + 1, x :: xs => (combinations n xs).map (fun t => x :: t) ++ combinations (n + 1) xs

/-- Helper realising the recursion of `combinations_with_replacement` on a
non-empty list `x :: xs` structurally in `n`; `restF m` stands for the
enumeration of length-`m` combinations-with-replacement of `xs`. -/
def cwrCons {α : Type} (x : α) (restF : Nat → List (List α)) : Nat → List (List α)
  | 0 => [[]]
  | n + 1 => (cwrCons x restF n).map (fun t => x :: t) ++ restF (n + 1)

/-- Structural core of `combinations_with_replacement`, recursing on the
list. -/
def cwrGo {α : Type} : List α → Nat → List (List α)
  | [], 0 => [[]]
  | [], _ + 1 => []
  | x :: xs, n => cwrCons x (cwrGo xs) n

/-- `itertools.combinations_with_replacement l n`, in Python's emission
order. -/
def combinationsWithReplacement {α : Type} (n : Nat) (l : List α) :
    List (List α) :=
  cwrGo l n

theorem combinationsWithReplacement_zero {α : Type} (l : List α) :
    combinationsWithReplacement 0 l = [[]] := by
  cases l <;> rfl

theorem combinationsWithReplacement_nil {α : Type} (n : Nat) :
    combinationsWithReplacement (n + 1) ([] : List α) = [] := rfl

/-- The defining equation of Python's enumeration: first every combination
starting with `x` (recursively of length one less over the same list), then
the combinations avoiding `x`. -/
theorem combinationsWithReplacement_cons {α : Type} (n : Nat) (x : α)
    (xs : List α) :
    combinationsWithReplacement (n + 1) (x :: xs) =
      (combinationsWithReplacement n (x :: xs)).map (fun t => x :: t) ++
        combinationsWithReplacement (n + 1) xs := rfl

/-- Python's `l.index x`: index of the first occurrence, `none` when absent
(where CPython raises `ValueError`). -/
def listIndex {α : Type} [DecidableEq α] : List α → α → Option Nat
  | [], _ => none
  | y :: ys, x => if y = x then some 0 else (listIndex ys x).map (fun i => i + 1)

/-- The default alphabet `"ATGC"` of the encoder. -/
def atgc : List Char := "ATGC".toList

/-- `find_interaction_index(seq, subseq, alphabet="ATGC",
all_possible_len_n_interactions=None)` from `datasets.py`.  At every call
site `subseq` is a Python `set`, so it is a `Finset Char` here and
`n = len(subseq)` is its cardinality. -/
def find_interaction_index (seq : List Char) (subseq : Finset Char)
    (alphabet : List Char := atgc)
    (all_possible_len_n_interactions : Option (List (Finset Char)) := none) :
    Option Nat :=
  let n := subseq.card
  let alphabet_interactions :=
    (combinationsWithReplacement n alphabet).map List.toFinset
  let num_interactions := alphabet_interactions.length
  let all_possible := all_possible_len_n_interactions.getD
    ((combinationsWithReplacement n seq).map List.toFinset)
  match listIndex all_possible subseq, listIndex alphabet_interactions subseq with
  | some group_index, some value_index =>
      some (num_interactions * group_index + value_index)
  | _, _ => none

/-- A list comprehension whose body may raise: `none` as soon as one
element fails. -/
def optMap {α β : Type} (f : α → Option β) : List α → Option (List β)
  | [] => some []
  | x :: xs =>
      match f x, optMap f xs with
      | some y, some ys => some (y :: ys)
      | _, _ => none

/-- `feature_vector[interaction_idxs] = 1.0`: set each listed position
to `1`. -/
def setOnes (fv : List Nat) (idxs : List Nat) : List Nat :=
  idxs.foldl (fun v i => v.set i 1) fv

/-- One iteration of the `for inter in interactions` loop in
`create_feature_vector_for_sequence`.  Note the source calls
`find_interaction_index` without passing `alphabet` through, so the
default `"ATGC"` is always used for the value enumeration. -/
def apply_order (seq : List Char) (fv : List Nat) (inter : Nat) :
    Option (List Nat) :=
  let cur_interactions := (combinations inter seq).map List.toFinset
  match optMap (fun cur_inter =>
      (find_interaction_index seq cur_inter atgc
        (some cur_interactions)).map (fun i => i + 1)) cur_interactions with
  | some interaction_idxs => some (setOnes fv interaction_idxs)
  | none => none

/-- A fold whose step may raise. -/
def optFold {α β : Type} (f : β → α → Option β) : List α → β → Option β
  | [], b => some b
  | x :: xs, b =>
      match f b x with
      | some b2 => optFold f xs b2
      | none => none

/-- `create_feature_vector_for_sequence(seq, alphabet="ATGC",
interactions=[1,2,3])` from `datasets.py`. -/
def create_feature_vector_for_sequence (seq : List Char)
    (alphabet : List Char := atgc) (interactions : List Nat := [1, 2, 3]) :
    Option (List Nat) :=
  let feature_vector_length :=
    (interactions.map (fun inter =>
      Nat.choose seq.length inter *
        Nat.choose (alphabet.length + inter - 1) inter)).sum + 1
  let feature_vector := (List.replicate feature_vector_length 0).set 0 1
  optFold (apply_order seq) interactions feature_vector

/-- The doubly nested loop of `create_group_indicies_list`: for each
interaction order emit `comb(seqlength, inter)` positional groups of
`comb(alphabet_length, inter, repetition=True)` columns each, advancing
`group_count` once per positional group. -/
def group_blocks (seqlength alphabet_length : Nat) :
    List Nat → Nat → List Nat
  | [], _ => []
  | inter :: rest, group_count =>
      let n_interactions := Nat.choose seqlength inter
      let n_alphabet_combos := Nat.choose (alphabet_length + inter - 1) inter
      ((List.range n_interactions).map (fun x1 =>
          List.replicate n_alphabet_combos (group_count + x1))).flatten ++
        group_blocks seqlength alphabet_length rest (group_count + n_interactions)

/-- `create_group_indicies_list(seqlength=7, alphabet="ATGC",
interactions=[1,2,3], include_extra=True)` from `datasets.py`. -/
def create_group_indicies_list (seqlength : Nat := 7)
    (alphabet : List Char := atgc) (interactions : List Nat := [1, 2, 3])
    (include_extra : Bool := true) : List Nat :=
  (if include_extra then [0] else []) ++
    group_blocks seqlength alphabet.length interactions 1

/-! ### Filesystem, fetchers and loaders -/

/-- State of the data directory: the names of the files currently present
in it, plus a log (in order) of the downloads performed so far. -/
structure FS where
  files : List String
  downloads : List String
deriving DecidableEq

/-- `urlretrieve(url, fname, _reporthook)`: after the call the file exists
at its destination, and one more download has happened. -/
def urlretrieve (fs : FS) (fname : String) : FS :=
  { files := fname :: fs.files, downloads := fs.downloads ++ [fname] }

/-- The three files of `fetch_tikhonov_data`. -/
def tikhonov_fnames : List String :=
  ["fixations.csv", "probes.csv", "spiketimes.csv"]

/-- `fetch_tikhonov_data`: if the data dir does not hold all three files,
download all three (the data dir itself exists, `get_data_home` created
it). -/
def fetch_tikhonov_data (fs : FS) : FS :=
  if ∀ fname ∈ tikhonov_fnames, fname ∈ fs.files then fs
  else tikhonov_fnames.foldl urlretrieve fs

/-- The two files of `fetch_group_lasso_data`. -/
def group_lasso_fnames : List String := ["pos", "neg"]

/-- The fetch step of `fetch_group_lasso_data` (lines 306-315): if not both
of `pos` and `neg` exist, retrieve both. -/
def fetch_group_lasso_files (fs : FS) : FS :=
  if ∀ fname ∈ group_lasso_fnames, fname ∈ fs.files then fs
  else urlretrieve (urlretrieve fs "pos") "neg"

/-- `str.lower()` (ASCII, which covers the license answers). -/
def pyLower (s : String) : String := String.mk (s.toList.map Char.toLower)

/-- Result of `fetch_rgc_spike_trains`: either a raised `RuntimeError`
(carrying the data-dir state at the moment of raising) or normal return,
recording whether `input()` was called on the standard input stream. -/
inductive RgcResult where
  | err (msg : String) (fs : FS)
  | ok (fs : FS) (prompted : Bool)
deriving DecidableEq

/-- `fetch_rgc_spike_trains(dpath, accept_rgcs_license=False)`:
`stdin_answer` is the line `input()` would read were it called. -/
def fetch_rgc_spike_trains (fs : FS) (accept_rgcs_license : Bool)
    (stdin_answer : String) : RgcResult :=
  if "data_RGCs.json" ∈ fs.files then .ok fs false
  else
    let answer := if accept_rgcs_license then "y" else stdin_answer
    let prompted := !accept_rgcs_license
    if pyLower answer ≠ "y" then
      .err "You must agree to the license to use this dataset" fs
    else .ok (urlretrieve fs "data_RGCs.json") prompted

/-! ### Cache locator -/

/-- A path is tilde-anchored when it is `~` or starts with `~/`;
`os.path.expanduser` rewrites exactly these (the `~user` form plays no
role in this module). -/
def tilde_anchored (path : String) : Bool :=
  path.toList = ['~'] || path.toList.take 2 = ['~', '/']

/-- `os.path.expanduser`. -/
def expanduser (home path : String) : String :=
  if tilde_anchored path then String.mk (home.toList ++ path.toList.drop 1)
  else path

/-- POSIX absoluteness: the path starts with `/`. -/
def isAbsolutePath (path : String) : Bool := path.toList.take 1 = ['/']

/-- `os.makedirs(p)` (without `exist_ok`): raises when the directory is
already present, otherwise creates it (and its parents). -/
def os_makedirs (dirs : List String) (p : String) : Option (List String) :=
  if p ∈ dirs then none else some (p :: dirs)

/-- `get_data_home(data_home=None)`: default to `op.join('~', 'glm_data')`,
expand the user shorthand, create the directory when absent (the
`os.makedirs` call is guarded by `op.exists`), and return the path
together with the new set of existing directories. -/
def get_data_home (home : String) (dirs : List String)
    (data_home : Option String) : Option (String × List String) :=
  let dh := expanduser home (data_home.getD "~/glm_data")
  if dh ∈ dirs then some (dh, dirs)
  else (os_makedirs dirs dh).map (fun ds => (dh, ds))

/-! ### Parsing and labelling in `fetch_group_lasso_data` -/

/-- The list comprehension
`[str(line.strip().upper()) for idx, line in enumerate(fp.readlines())
if ">" not in line and idx < cutoff]`, carrying the running `enumerate`
index explicitly. -/
def collect_sequences : List String → Nat → Nat → List String
  | [], _, _ => []
  | line :: rest, idx, cutoff =>
      (if ¬ line.toList.contains '>' ∧ idx < cutoff
       then [String.mk (line.trim.toList.map Char.toUpper)] else []) ++
        collect_sequences rest (idx + 1) cutoff

/-- `df.loc[0:hi, "Label"] = v`: pandas `.loc` slices are label based and
end-inclusive; positions `0..hi` (inclusive) receive `some v`, others keep
their entry.  The running row label `i` is explicit. -/
def locAssignTo : List (Option Nat) → Nat → Nat → Nat → List (Option Nat)
  | [], _, _, _ => []
  | x :: xs, i, hi, v =>
      (if i ≤ hi then some v else x) :: locAssignTo xs (i + 1) hi v

/-- `df.loc[lo:, "Label"] = v`: every position from `lo` (inclusive) to the
end receives `some v`. -/
def locAssignFrom : List (Option Nat) → Nat → Nat → Nat → List (Option Nat)
  | [], _, _, _ => []
  | x :: xs, i, lo, v =>
      (if lo ≤ i then some v else x) :: locAssignFrom xs (i + 1) lo v

/-- The `Label` column built by `fetch_group_lasso_data`: a fresh column
(`none` everywhere, pandas' NaN) over the `npos + nneg` stacked rows, then
`df.loc[0:npos, "Label"] = 1.0` followed by `df.loc[npos:, "Label"] = 0.0`. -/
def group_lasso_label_column (npos nneg : Nat) : List (Option Nat) :=
  locAssignFrom
    (locAssignTo (List.replicate (npos + nneg) none) 0 npos 1) 0 npos 0

/-- Lines 332-343 of `fetch_group_lasso_data`: stack the positive feature
matrix on top of the negative one (`np.vstack`) and build the label
column. -/
def group_lasso_stack_and_label (posmat negmat : List (List Nat)) :
    List (List Nat) × List (Option Nat) :=
  (posmat ++ negmat, group_lasso_label_column posmat.length negmat.length)

set_option maxRecDepth 10000

/-! ### Lemmas about the combinatorial enumerations -/

theorem mem_of_mem_combinations {α : Type} :
    ∀ (n : Nat) (l t : List α), t ∈ combinations n l → ∀ c ∈ t, c ∈ l := by
  intro n l
  induction l generalizing n with
  | nil =>
    intro t ht c hc
    cases n with
    | zero =>
      simp only [combinations, List.mem_singleton] at ht
      subst ht; simp at hc
    | succ m => simp [combinations] at ht
  | cons x xs ih =>
    intro t ht c hc
    cases n with
    | zero =>
      simp only [combinations, List.mem_singleton] at ht
      subst ht; simp at hc
    | succ m =>
      simp only [combinations, List.mem_append, List.mem_map] at ht
      rcases ht with ⟨a, ha, rfl⟩ | ht
      · rcases List.mem_cons.mp hc with rfl | hc
        · exact List.mem_cons_self _ _
        · exact List.mem_cons_of_mem x (ih m a ha c hc)
      · exact List.mem_cons_of_mem x (ih (m + 1) t ht c hc)

theorem exists_combination_toFinset {α : Type} [DecidableEq α] :
    ∀ (l : List α) (s : Finset α), (∀ c ∈ s, c ∈ l) →
      ∃ t, t ∈ combinations s.card l ∧ t.toFinset = s := by
  intro l
  induction l with
  | nil =>
    intro s hs
    have hse : s = ∅ := Finset.eq_empty_of_forall_not_mem fun c hc => by
      simpa using hs c hc
    subst hse
    exact ⟨[], by simp [combinations], by simp⟩
  | cons x xs ih =>
    intro s hs
    by_cases hx : x ∈ s
    · have hsub : ∀ c ∈ s.erase x, c ∈ xs := by
        intro c hc
        rcases List.mem_cons.mp (hs c (Finset.mem_of_mem_erase hc)) with rfl | h
        · exact absurd rfl (Finset.ne_of_mem_erase hc)
        · exact h
      obtain ⟨t, htmem, htfin⟩ := ih (s.erase x) hsub
      have hcard : s.card = (s.erase x).card + 1 :=
        (Finset.card_erase_add_one hx).symm
      refine ⟨x :: t, ?_, ?_⟩
      · rw [hcard]
        simp only [combinations, List.mem_append, List.mem_map]
        exact Or.inl ⟨t, htmem, rfl⟩
      · rw [List.toFinset_cons, htfin, Finset.insert_erase hx]
    · have hsub : ∀ c ∈ s, c ∈ xs := by
        intro c hc
        rcases List.mem_cons.mp (hs c hc) with rfl | h
        · exact absurd hc hx
        · exact h
      obtain ⟨t, htmem, htfin⟩ := ih s hsub
      refine ⟨t, ?_, htfin⟩
      cases hcard : s.card with
      | zero =>
        rw [hcard] at htmem
        simpa [combinations] using htmem
      | succ m =>
        rw [hcard] at htmem
        simp only [combinations, List.mem_append]
        exact Or.inr htmem

theorem cwr_mono {α : Type} (n : Nat) (x : α) (xs : List α) :
    ∀ t ∈ combinationsWithReplacement n xs,
      t ∈ combinationsWithReplacement n (x :: xs) := by
  intro t ht
  cases n with
  | zero =>
    rw [combinationsWithReplacement_zero] at ht ⊢
    exact ht
  | succ m =>
    rw [combinationsWithReplacement_cons]
    exact List.mem_append_right _ ht

theorem combinations_subset_cwr {α : Type} :
    ∀ (l : List α) (n : Nat), ∀ t ∈ combinations n l,
      t ∈ combinationsWithReplacement n l := by
  intro l
  induction l with
  | nil =>
    intro n t ht
    cases n with
    | zero =>
      rw [combinationsWithReplacement_zero]
      simpa [combinations] using ht
    | succ m => simp [combinations] at ht
  | cons x xs ih =>
    intro n t ht
    cases n with
    | zero =>
      rw [combinationsWithReplacement_zero]
      simpa [combinations] using ht
    | succ m =>
      rw [combinationsWithReplacement_cons]
      simp only [combinations, List.mem_append, List.mem_map] at ht
      rcases ht with ⟨a, ha, rfl⟩ | ht
      · exact List.mem_append_left _
          (List.mem_map.mpr ⟨a, cwr_mono m x xs a (ih m a ha), rfl⟩)
      · exact List.mem_append_right _ (ih (m + 1) t ht)

theorem listIndex_isSome {α : Type} [DecidableEq α] :
    ∀ (l : List α) (x : α), x ∈ l → ∃ i, listIndex l x = some i := by
  intro l x
  induction l with
  | nil => intro h; simp at h
  | cons y ys ih =>
    intro h
    by_cases hyx : y = x
    · exact ⟨0, by simp [listIndex, hyx]⟩
    · rcases List.mem_cons.mp h with rfl | h
      · exact absurd rfl hyx
      · obtain ⟨i, hi⟩ := ih h
        exact ⟨i + 1, by simp [listIndex, hyx, hi]⟩

theorem find_interaction_index_isSome (seq : List Char) (s : Finset Char)
    (allp : List (Finset Char)) (hmem : s ∈ allp)
    (hsub : ∀ c ∈ s, c ∈ atgc) :
    ∃ m, find_interaction_index seq s atgc (some allp) = some m := by
  obtain ⟨t, htmem, htfin⟩ := exists_combination_toFinset atgc s hsub
  have h1 : s ∈ (combinationsWithReplacement s.card atgc).map List.toFinset :=
    List.mem_map.mpr ⟨t, combinations_subset_cwr atgc s.card t htmem, htfin⟩
  obtain ⟨gi, hgi⟩ := listIndex_isSome allp s hmem
  obtain ⟨vi, hvi⟩ := listIndex_isSome _ s h1
  refine ⟨((combinationsWithReplacement s.card atgc).map
    (List.toFinset)).length * gi + vi, ?_⟩
  have heq : find_interaction_index seq s atgc (some allp) =
      match listIndex allp s,
        listIndex ((combinationsWithReplacement s.card atgc).map
          List.toFinset) s with
      | some group_index, some value_index =>
          some (((combinationsWithReplacement s.card atgc).map
            (List.toFinset)).length * group_index + value_index)
      | _, _ => none := rfl
  rw [heq, hgi, hvi]

/-! ### Preservation lemmas for the feature-vector assembly -/

theorem optMap_forall {α β : Type} (f : α → Option β) (P : β → Prop) :
    ∀ l : List α, (∀ x ∈ l, ∃ y, f x = some y ∧ P y) →
      ∃ ys, optMap f l = some ys ∧ ∀ y ∈ ys, P y := by
  intro l
  induction l with
  | nil => exact fun _ => ⟨[], rfl, by simp⟩
  | cons x xs ih =>
    intro h
    obtain ⟨y, hy, hPy⟩ := h x (List.mem_cons_self x xs)
    obtain ⟨ys, hys, hPys⟩ := ih fun a ha => h a (List.mem_cons_of_mem x ha)
    refine ⟨y :: ys, ?_, ?_⟩
    · simp [optMap, hy, hys]
    · intro z hz
      rcases List.mem_cons.mp hz with rfl | hz
      · exact hPy
      · exact hPys z hz

theorem setOnes_cons (fv : List Nat) (i : Nat) (rest : List Nat) :
    setOnes fv (i :: rest) = setOnes (fv.set i 1) rest := rfl

theorem setOnes_length :
    ∀ (idxs fv : List Nat), (setOnes fv idxs).length = fv.length := by
  intro idxs
  induction idxs with
  | nil => intro fv; rfl
  | cons i rest ih =>
    intro fv
    rw [setOnes_cons, ih, List.length_set]

theorem head?_set_succ {α : Type} (l : List α) (i : Nat) (a : α) :
    (l.set (i + 1) a).head? = l.head? := by
  cases l <;> rfl

theorem setOnes_head? :
    ∀ (idxs fv : List Nat), (∀ i ∈ idxs, 1 ≤ i) →
      (setOnes fv idxs).head? = fv.head? := by
  intro idxs
  induction idxs with
  | nil => intro fv _; rfl
  | cons i rest ih =>
    intro fv h
    have hi : 1 ≤ i := h i (List.mem_cons_self i rest)
    obtain ⟨i', rfl⟩ : ∃ i', i = i' + 1 := ⟨i - 1, by omega⟩
    rw [setOnes_cons, ih _ fun j hj => h j (List.mem_cons_of_mem _ hj),
      head?_set_succ]

theorem apply_order_spec (seq : List Char) (hseq : ∀ c ∈ seq, c ∈ atgc)
    (fv : List Nat) (inter : Nat) :
    ∃ fv2, apply_order seq fv inter = some fv2 ∧
      fv2.length = fv.length ∧ fv2.head? = fv.head? := by
  have hmem : ∀ s ∈ (combinations inter seq).map List.toFinset,
      ∃ y, (find_interaction_index seq s atgc
          (some ((combinations inter seq).map List.toFinset))).map
            (fun i => i + 1) = some y ∧ 1 ≤ y := by
    intro s hs
    have hsub : ∀ c ∈ s, c ∈ atgc := by
      rcases List.mem_map.mp hs with ⟨t, ht, rfl⟩
      intro c hc
      exact hseq c
        (mem_of_mem_combinations inter seq t ht c (List.mem_toFinset.mp hc))
    obtain ⟨m, hm⟩ := find_interaction_index_isSome seq s _ hs hsub
    exact ⟨m + 1, by rw [hm]; rfl, by omega⟩
  obtain ⟨idxs, hidxs, hpos⟩ := optMap_forall _ _ _ hmem
  refine ⟨setOnes fv idxs, ?_, setOnes_length idxs fv,
    setOnes_head? idxs fv hpos⟩
  have heq : apply_order seq fv inter =
      match optMap (fun cur_inter =>
          (find_interaction_index seq cur_inter atgc
            (some ((combinations inter seq).map List.toFinset))).map
              (fun i => i + 1))
          ((combinations inter seq).map List.toFinset) with
      | some interaction_idxs => some (setOnes fv interaction_idxs)
      | none => none := rfl
  rw [heq, hidxs]

theorem optFold_apply_order_spec (seq : List Char)
    (hseq : ∀ c ∈ seq, c ∈ atgc) :
    ∀ (inters : List Nat) (fv : List Nat),
      ∃ v, optFold (apply_order seq) inters fv = some v ∧
        v.length = fv.length ∧ v.head? = fv.head? := by
  intro inters
  induction inters with
  | nil => exact fun fv => ⟨fv, rfl, rfl, rfl⟩
  | cons k rest ih =>
    intro fv
    obtain ⟨fv2, h1, h2, h3⟩ := apply_order_spec seq hseq fv k
    obtain ⟨v, hv, hvl, hvh⟩ := ih fv2
    refine ⟨v, ?_, hvl.trans h2, hvh.trans h3⟩
    show optFold (apply_order seq) (k :: rest) fv = some v
    simp only [optFold]
    rw [h1]
    exact hv

/-- Shared helper: for a sequence over the default alphabet the encoder
succeeds, the vector's length is the closed formula the source allocates,
and position 0 carries the bias `1`. -/
theorem create_feature_vector_spec (seq : List Char) (interactions : List Nat)
    (hseq : ∀ c ∈ seq, c ∈ atgc) :
    ∃ v, create_feature_vector_for_sequence seq atgc interactions = some v ∧
      v.length = (interactions.map (fun inter =>
        Nat.choose seq.length inter *
          Nat.choose (atgc.length + inter - 1) inter)).sum + 1 ∧
      v.head? = some 1 := by
  have heq : create_feature_vector_for_sequence seq atgc interactions =
      optFold (apply_order seq) interactions
        ((List.replicate ((interactions.map (fun inter =>
          Nat.choose seq.length inter *
            Nat.choose (atgc.length + inter - 1) inter)).sum + 1) 0).set 0 1) :=
    rfl
  obtain ⟨v, hv, hvl, hvh⟩ := optFold_apply_order_spec seq hseq interactions
    ((List.replicate ((interactions.map (fun inter =>
      Nat.choose seq.length inter *
        Nat.choose (atgc.length + inter - 1) inter)).sum + 1) 0).set 0 1)
  refine ⟨v, heq ▸ hv, ?_, ?_⟩
  · rw [hvl, List.length_set, List.length_replicate]
  · rw [hvh, List.replicate_succ]
    rfl

/-! ### Claim theorems -/

/-- C1 (code bug): the spec says a concrete observed interaction's column
is `group ordinal * number of alphabet interactions + value ordinal`,
offset by 1 for the bias AND by the cumulative width of the lower orders
already emitted.  The code applies only the `+ 1` bias offset.  For
`seq = "ATGC"`, the order-2 interaction `{A, T}` has group ordinal 0 and
value ordinal 1, so the spec places it at column
`C(4,1)*C(4,1,rep) + 0*10 + 1 + 1 = 18` (past the 16 order-1 columns),
but `find_interaction_index` returns 1 and the code sets column 2 — which
lies inside the order-1 block — while column 18 stays 0. -/
theorem C1_interaction_index_omits_lower_order_offset :
    find_interaction_index "ATGC".toList ({'A', 'T'} : Finset Char) atgc
        (some ((combinations 2 "ATGC".toList).map List.toFinset)) = some 1 ∧
    (create_feature_vector_for_sequence "ATGC".toList atgc [1, 2, 3]).map
        (fun v => (v.get? (1 + 1),
          v.get? (Nat.choose 4 1 * Nat.choose 4 1 + 1 + 1))) =
      some (some 1, some 0) := by
  constructor <;> decide

/-- C2: for any length-7 sequence over the default alphabet, the feature
vector produced with the default parameters has exactly the same length as
the independently computed group-index list. -/
theorem C2_group_list_matches_feature_vector_width (seq : List Char)
    (hseq : ∀ c ∈ seq, c ∈ atgc) (hlen : seq.length = 7) :
    ∃ v, create_feature_vector_for_sequence seq atgc [1, 2, 3] = some v ∧
      v.length = (create_group_indicies_list 7 atgc [1, 2, 3] true).length := by
  obtain ⟨v, hv, hl, _⟩ := create_feature_vector_spec seq [1, 2, 3] hseq
  refine ⟨v, hv, ?_⟩
  rw [hl, hlen]
  decide

/-- Witness for C2 at the concrete sequence `"ATGCATG"`. -/
theorem C2_group_list_matches_feature_vector_width_witness :
    ∃ v, create_feature_vector_for_sequence "ATGCATG".toList atgc [1, 2, 3] =
        some v ∧
      v.length = (create_group_indicies_list 7 atgc [1, 2, 3] true).length :=
  C2_group_list_matches_feature_vector_width "ATGCATG".toList (by decide)
    (by decide)

/-- C3: for every sequence over the (default, and only effective) 4-symbol
alphabet and every configured order list, the encoder returns a vector of
length `1 + Σ_k C(L,k)·C(4,k,rep)` whose position 0 is 1; in particular
the length is 939 for `L = 7`, `K = [1,2,3]`. -/
theorem C3_feature_vector_length (seq : List Char) (interactions : List Nat)
    (hseq : ∀ c ∈ seq, c ∈ atgc) :
    ∃ v, create_feature_vector_for_sequence seq atgc interactions = some v ∧
      v.length = (interactions.map (fun inter =>
        Nat.choose seq.length inter *
          Nat.choose (atgc.length + inter - 1) inter)).sum + 1 ∧
      v.head? = some 1 ∧
      (seq.length = 7 → interactions = [1, 2, 3] → v.length = 939) := by
  obtain ⟨v, hv, hl, hh⟩ := create_feature_vector_spec seq interactions hseq
  refine ⟨v, hv, hl, hh, ?_⟩
  intro h7 hK
  subst hK
  rw [hl, h7]
  decide

/-- C3 counterexample: with a non-default alphabet the encoder returns no
vector at all — `create_feature_vector_for_sequence` never forwards its
`alphabet` argument to `find_interaction_index`, whose value lookup is
always against the default `"ATGC"`, so for `alphabet = "XY"` and the
sequence `"XY"` over it the lookup of the set `{X}` raises `ValueError`
(here: `none`), and no feature vector of the claimed length exists. -/
theorem C3_counterexample_nondefault_alphabet :
    create_feature_vector_for_sequence "XY".toList "XY".toList [1] =
      none := by decide

/-- Witness for C3 at the concrete sequence `"GATTACA"`. -/
theorem C3_feature_vector_length_witness :
    ∃ v, create_feature_vector_for_sequence "GATTACA".toList atgc [1, 2, 3] =
        some v ∧ v.length = 939 ∧ v.head? = some 1 := by
  obtain ⟨v, hv, _, hh, hp⟩ :=
    C3_feature_vector_length "GATTACA".toList [1, 2, 3] (by decide)
  exact ⟨v, hv, hp (by decide) rfl, hh⟩

/-- C4 counterexample: with `fixations.csv` already present but the other
two Tikhonov files missing, the loader downloads `fixations.csv` again —
a network call for a destination file that already exists, contradicting
the per-file claim. -/
theorem C4_counterexample_redownloads_existing_file :
    "fixations.csv" ∈ (FS.mk ["fixations.csv"] []).files ∧
    "fixations.csv" ∈
      (fetch_tikhonov_data (FS.mk ["fixations.csv"] [])).downloads := by
  constructor <;> decide

/-- C4 (amended): the multi-file loaders are all-or-nothing per loader:
if every destination file of the loader exists, no download occurs; if any
is missing, each of the loader's files is downloaded exactly once —
including the ones already present — and all of them exist afterward. -/
theorem C4_fetch_all_or_nothing (fs : FS) :
    ((∀ f ∈ tikhonov_fnames, f ∈ fs.files) → fetch_tikhonov_data fs = fs) ∧
    (¬ (∀ f ∈ tikhonov_fnames, f ∈ fs.files) →
      (fetch_tikhonov_data fs).downloads = fs.downloads ++ tikhonov_fnames ∧
      ∀ f ∈ tikhonov_fnames, f ∈ (fetch_tikhonov_data fs).files) ∧
    ((∀ f ∈ group_lasso_fnames, f ∈ fs.files) →
      fetch_group_lasso_files fs = fs) ∧
    (¬ (∀ f ∈ group_lasso_fnames, f ∈ fs.files) →
      (fetch_group_lasso_files fs).downloads =
        fs.downloads ++ group_lasso_fnames ∧
      ∀ f ∈ group_lasso_fnames, f ∈ (fetch_group_lasso_files fs).files) := by
  refine ⟨?_, ?_, ?_, ?_⟩
  · intro h
    unfold fetch_tikhonov_data
    rw [if_pos h]
  · intro h
    have he : fetch_tikhonov_data fs = tikhonov_fnames.foldl urlretrieve fs := by
      unfold fetch_tikhonov_data
      rw [if_neg h]
    rw [he]
    refine ⟨?_, ?_⟩
    · simp [tikhonov_fnames, urlretrieve]
    · intro f hf
      simp only [tikhonov_fnames, List.mem_cons, List.not_mem_nil, or_false] at hf
      rcases hf with rfl | rfl | rfl <;>
        simp [tikhonov_fnames, urlretrieve]
  · intro h
    unfold fetch_group_lasso_files
    rw [if_pos h]
  · intro h
    have he : fetch_group_lasso_files fs =
        urlretrieve (urlretrieve fs "pos") "neg" := by
      unfold fetch_group_lasso_files
      rw [if_neg h]
    rw [he]
    refine ⟨?_, ?_⟩
    · simp [group_lasso_fnames, urlretrieve]
    · intro f hf
      simp only [group_lasso_fnames, List.mem_cons, List.not_mem_nil,
        or_false] at hf
      rcases hf with rfl | rfl <;> simp [urlretrieve]

/-- Witness for C4 (amended): one state with all files present, one with
none. -/
theorem C4_fetch_all_or_nothing_witness :
    fetch_tikhonov_data
        (FS.mk ["fixations.csv", "probes.csv", "spiketimes.csv"] []) =
      FS.mk ["fixations.csv", "probes.csv", "spiketimes.csv"] [] ∧
    (fetch_tikhonov_data (FS.mk [] [])).downloads = [] ++ tikhonov_fnames ∧
    (fetch_group_lasso_files (FS.mk [] [])).downloads =
      [] ++ group_lasso_fnames :=
  ⟨(C4_fetch_all_or_nothing _).1 (by decide),
    ((C4_fetch_all_or_nothing _).2.1 (by decide)).1,
    ((C4_fetch_all_or_nothing (FS.mk [] [])).2.2.2 (by decide)).1⟩

/-- C5: with the file not cached, a false consent flag and a
non-affirmative interactive answer raise the distinct consent error with
the state unchanged (no download); a true consent flag downloads without
prompting on standard input. -/
theorem C5_consent_gate (fs : FS) (stdin_answer : String)
    (hmiss : "data_RGCs.json" ∉ fs.files) :
    (pyLower stdin_answer ≠ "y" →
      fetch_rgc_spike_trains fs false stdin_answer =
        .err "You must agree to the license to use this dataset" fs) ∧
    fetch_rgc_spike_trains fs true stdin_answer =
      .ok (urlretrieve fs "data_RGCs.json") false := by
  have hy : pyLower "y" = "y" := by decide
  constructor
  · intro hno
    simp [fetch_rgc_spike_trains, hmiss, hno]
  · simp [fetch_rgc_spike_trains, hmiss, hy]

/-- Witness for C5 with an empty cache and the answer `"n"`. -/
theorem C5_consent_gate_witness :
    fetch_rgc_spike_trains (FS.mk [] []) false "n" =
      .err "You must agree to the license to use this dataset"
        (FS.mk [] []) ∧
    fetch_rgc_spike_trains (FS.mk [] []) true "n" =
      .ok (urlretrieve (FS.mk [] []) "data_RGCs.json") false :=
  ⟨(C5_consent_gate (FS.mk [] []) "n" (by decide)).1 (by decide),
    (C5_consent_gate (FS.mk [] []) "n" (by decide)).2⟩

/-- C9: when `data_RGCs.json` is already cached, the loader returns
immediately: no prompt is issued and the consent flag is never consulted,
whatever its value. -/
theorem C9_cached_file_skips_consent (fs : FS) (accept : Bool)
    (stdin_answer : String) (hhit : "data_RGCs.json" ∈ fs.files) :
    fetch_rgc_spike_trains fs accept stdin_answer = .ok fs false := by
  simp [fetch_rgc_spike_trains, hhit]

/-- Witness for C9: cached file, consent flag false, a refusing answer on
standard input — still an immediate normal return. -/
theorem C9_cached_file_skips_consent_witness :
    fetch_rgc_spike_trains (FS.mk ["data_RGCs.json"] []) false "n" =
      .ok (FS.mk ["data_RGCs.json"] []) false :=
  C9_cached_file_skips_consent (FS.mk ["data_RGCs.json"] []) false "n"
    (by decide)

/-! ### Lemmas about pandas-style label assignment -/

theorem locAssignTo_length :
    ∀ (l : List (Option Nat)) (i hi v : Nat),
      (locAssignTo l i hi v).length = l.length := by
  intro l
  induction l with
  | nil => intro i hi v; rfl
  | cons x xs ih => intro i hi v; simp [locAssignTo, ih]

theorem locAssignTo_append (l1 l2 : List (Option Nat)) :
    ∀ (i hi v : Nat),
      locAssignTo (l1 ++ l2) i hi v =
        locAssignTo l1 i hi v ++ locAssignTo l2 (i + l1.length) hi v := by
  induction l1 with
  | nil => intro i hi v; simp [locAssignTo]
  | cons x xs ih =>
    intro i hi v
    have harith : i + 1 + xs.length = i + (xs.length + 1) := by omega
    calc locAssignTo ((x :: xs) ++ l2) i hi v
        = (if i ≤ hi then some v else x) ::
            locAssignTo (xs ++ l2) (i + 1) hi v := rfl
      _ = (if i ≤ hi then some v else x) ::
            (locAssignTo xs (i + 1) hi v ++
              locAssignTo l2 (i + 1 + xs.length) hi v) := by
          rw [ih (i + 1) hi v]
      _ = locAssignTo (x :: xs) i hi v ++
            locAssignTo l2 (i + (x :: xs).length) hi v := by
          rw [harith]; rfl

theorem locAssignTo_all (l : List (Option Nat)) :
    ∀ (i hi v : Nat), i + l.length ≤ hi + 1 →
      locAssignTo l i hi v = List.replicate l.length (some v) := by
  induction l with
  | nil => intro i hi v _; rfl
  | cons x xs ih =>
    intro i hi v h
    simp only [List.length_cons] at h
    simp only [locAssignTo, List.length_cons, List.replicate_succ]
    rw [if_pos (by omega), ih (i + 1) hi v (by omega)]

theorem locAssignFrom_length :
    ∀ (l : List (Option Nat)) (i lo v : Nat),
      (locAssignFrom l i lo v).length = l.length := by
  intro l
  induction l with
  | nil => intro i lo v; rfl
  | cons x xs ih => intro i lo v; simp [locAssignFrom, ih]

theorem locAssignFrom_append (l1 l2 : List (Option Nat)) :
    ∀ (i lo v : Nat),
      locAssignFrom (l1 ++ l2) i lo v =
        locAssignFrom l1 i lo v ++ locAssignFrom l2 (i + l1.length) lo v := by
  induction l1 with
  | nil => intro i lo v; simp [locAssignFrom]
  | cons x xs ih =>
    intro i lo v
    have harith : i + 1 + xs.length = i + (xs.length + 1) := by omega
    calc locAssignFrom ((x :: xs) ++ l2) i lo v
        = (if lo ≤ i then some v else x) ::
            locAssignFrom (xs ++ l2) (i + 1) lo v := rfl
      _ = (if lo ≤ i then some v else x) ::
            (locAssignFrom xs (i + 1) lo v ++
              locAssignFrom l2 (i + 1 + xs.length) lo v) := by
          rw [ih (i + 1) lo v]
      _ = locAssignFrom (x :: xs) i lo v ++
            locAssignFrom l2 (i + (x :: xs).length) lo v := by
          rw [harith]; rfl

theorem locAssignFrom_all (l : List (Option Nat)) :
    ∀ (i lo v : Nat), lo ≤ i →
      locAssignFrom l i lo v = List.replicate l.length (some v) := by
  induction l with
  | nil => intro i lo v _; rfl
  | cons x xs ih =>
    intro i lo v h
    simp only [locAssignFrom, List.length_cons, List.replicate_succ]
    rw [if_pos h, ih (i + 1) lo v (by omega)]

theorem locAssignFrom_skip (l : List (Option Nat)) :
    ∀ (i lo v : Nat), i + l.length ≤ lo →
      locAssignFrom l i lo v = l := by
  induction l with
  | nil => intro i lo v _; rfl
  | cons x xs ih =>
    intro i lo v h
    simp only [List.length_cons] at h
    simp only [locAssignFrom]
    rw [if_neg (by omega), ih (i + 1) lo v (by omega)]

/-- The two pandas `.loc` assignments produce exactly `npos` ones followed
by `nneg` zeros: the end-inclusive first slice also writes row `npos`, but
the second slice immediately overwrites it with `0.0`. -/
theorem group_lasso_label_column_eq (npos nneg : Nat) :
    group_lasso_label_column npos nneg =
      List.replicate npos (some 1) ++ List.replicate nneg (some 0) := by
  unfold group_lasso_label_column
  rw [List.replicate_add, locAssignTo_append,
    locAssignTo_all (List.replicate npos none) 0 npos 1
      (by simp only [List.length_replicate]; omega)]
  simp only [List.length_replicate, Nat.zero_add]
  rw [locAssignFrom_append,
    locAssignFrom_skip (List.replicate npos (some 1)) 0 npos 0
      (by simp only [List.length_replicate]; omega),
    locAssignFrom_all (locAssignTo (List.replicate nneg none) npos npos 1)
      (0 + (List.replicate npos (some 1)).length) npos 0
      (by simp only [List.length_replicate]; omega),
    locAssignTo_length, List.length_replicate]

/-- C6: for equal positive/negative feature matrices of `n` rows each, the
stacked design matrix has exactly `2n` rows and the label column is `1.0`
on exactly the first `n` rows and `0.0` on the remaining `n`. -/
theorem C6_stack_rows_and_labels (posmat negmat : List (List Nat))
    (h : posmat.length = negmat.length) :
    (group_lasso_stack_and_label posmat negmat).1.length =
      2 * posmat.length ∧
    (group_lasso_stack_and_label posmat negmat).2 =
      List.replicate posmat.length (some 1) ++
        List.replicate negmat.length (some 0) := by
  constructor
  · simp only [group_lasso_stack_and_label, List.length_append]
    omega
  · exact group_lasso_label_column_eq posmat.length negmat.length

/-- Witness for C6 with two rows on each side. -/
theorem C6_stack_rows_and_labels_witness :
    (group_lasso_stack_and_label [[1], [2]] [[3], [4]]).1.length = 2 * 2 ∧
    (group_lasso_stack_and_label [[1], [2]] [[3], [4]]).2 =
      List.replicate 2 (some 1) ++ List.replicate 2 (some 0) :=
  C6_stack_rows_and_labels [[1], [2]] [[3], [4]] rfl

/-! ### Cache-locator lemmas -/

theorem expanduser_absolute (home path : String)
    (habs : isAbsolutePath home = true)
    (h : tilde_anchored path = true ∨ isAbsolutePath path = true) :
    isAbsolutePath (expanduser home path) = true := by
  have habs' : home.toList.take 1 = ['/'] := of_decide_eq_true habs
  obtain ⟨t, hht⟩ : ∃ t, home.toList = '/' :: t := by
    cases hh : home.toList with
    | nil => rw [hh] at habs'; simp at habs'
    | cons c cs =>
      rw [hh] at habs'
      simp only [List.take_succ_cons, List.take_zero] at habs'
      obtain rfl : c = '/' := by simpa using habs'
      exact ⟨cs, rfl⟩
  by_cases ht : tilde_anchored path = true
  · unfold expanduser
    rw [if_pos ht]
    apply decide_eq_true
    show (home.toList ++ path.toList.drop 1).take 1 = ['/']
    rw [hht]
    rfl
  · rcases h with h | h
    · exact absurd h ht
    · unfold expanduser
      rw [if_neg ht]
      exact h

/-- C7 counterexample: a relative override is returned as-is — the
directory exists afterward, but the returned path is not absolute
(`os.path.expanduser` does not absolutise). -/
theorem C7_counterexample_relative_override :
    get_data_home "/home/user" [] (some "mydata") =
      some ("mydata", ["mydata"]) ∧
    isAbsolutePath "mydata" = false := by
  constructor <;> decide

/-- C7 (amended): `get_data_home` expands the user shorthand, creates the
directory when absent, and returns a path that exists afterward; a second
call with the same override returns the same path and state and does not
raise.  The returned path is absolute whenever the override is absent,
itself absolute, or home-anchored (`~`, `~/...`); a bare relative override
is returned relative. -/
theorem C7_data_home_idempotent (home : String) (dirs : List String)
    (data_home : Option String) (habs : isAbsolutePath home = true) :
    ∃ p dirs2, get_data_home home dirs data_home = some (p, dirs2) ∧
      p ∈ dirs2 ∧
      get_data_home home dirs2 data_home = some (p, dirs2) ∧
      ((data_home = none ∨ (∃ s, data_home = some s ∧
          (isAbsolutePath s = true ∨ tilde_anchored s = true))) →
        isAbsolutePath p = true) := by
  have habs_dh :
      (data_home = none ∨ (∃ s, data_home = some s ∧
        (isAbsolutePath s = true ∨ tilde_anchored s = true))) →
      isAbsolutePath (expanduser home (data_home.getD "~/glm_data")) =
        true := by
    intro h
    rcases h with rfl | ⟨s, rfl, hs⟩
    · exact expanduser_absolute home _ habs (Or.inl (by decide))
    · rcases hs with hs | hs
      · exact expanduser_absolute home s habs (Or.inr hs)
      · exact expanduser_absolute home s habs (Or.inl hs)
  by_cases hmem : expanduser home (data_home.getD "~/glm_data") ∈ dirs
  · refine ⟨expanduser home (data_home.getD "~/glm_data"), dirs, ?_, hmem,
      ?_, habs_dh⟩
    · unfold get_data_home
      rw [if_pos hmem]
    · unfold get_data_home
      rw [if_pos hmem]
  · refine ⟨expanduser home (data_home.getD "~/glm_data"),
      expanduser home (data_home.getD "~/glm_data") :: dirs, ?_,
      List.mem_cons_self _ _, ?_, habs_dh⟩
    · unfold get_data_home os_makedirs
      rw [if_neg hmem, if_neg hmem]
      rfl
    · unfold get_data_home
      rw [if_pos (List.mem_cons_self _ _)]

/-- Witness for C7 (amended): default override under an absolute home. -/
theorem C7_data_home_idempotent_witness :
    ∃ p dirs2, get_data_home "/home/user" [] none = some (p, dirs2) ∧
      p ∈ dirs2 ∧
      get_data_home "/home/user" dirs2 none = some (p, dirs2) ∧
      isAbsolutePath p = true := by
  obtain ⟨p, dirs2, h1, h2, h3, h4⟩ :=
    C7_data_home_idempotent "/home/user" [] none (by decide)
  exact ⟨p, dirs2, h1, h2, h3, h4 (Or.inl rfl)⟩

/-- C8: with the default parameters the group-index list is exactly the
block structure the claim describes — group 0 on column 0, then for each
order `k` in `[1,2,3]` the `C(7,k)` positional groups, each contributing
`C(4,k,rep)` consecutive columns with one shared group id, the id
advancing by one per positional group (ids start at 1, 8 = 1 + C(7,1) and
29 = 8 + C(7,2)); along the list each adjacent pair of ids is equal or
steps up by exactly 1, so the ids are non-decreasing. -/
theorem C8_group_index_blocks :
    create_group_indicies_list 7 atgc [1, 2, 3] true =
      0 :: (((List.range (Nat.choose 7 1)).map (fun g =>
          List.replicate (Nat.choose (4 + 1 - 1) 1) (1 + g))).flatten ++
        ((List.range (Nat.choose 7 2)).map (fun g =>
          List.replicate (Nat.choose (4 + 2 - 1) 2) (8 + g))).flatten ++
        ((List.range (Nat.choose 7 3)).map (fun g =>
          List.replicate (Nat.choose (4 + 3 - 1) 3) (29 + g))).flatten) ∧
    ((create_group_indicies_list 7 atgc [1, 2, 3] true).zip
        (create_group_indicies_list 7 atgc [1, 2, 3] true).tail).all
      (fun p => p.2 == p.1 || p.2 == p.1 + 1) = true := by
  constructor <;> decide

/-! ### Truncation lemmas for the sequence parser -/

theorem collect_sequences_stop (lines : List String) :
    ∀ (idx cutoff : Nat), cutoff ≤ idx →
      collect_sequences lines idx cutoff = [] := by
  induction lines with
  | nil => intro idx cutoff _; rfl
  | cons line rest ih =>
    intro idx cutoff h
    simp only [collect_sequences]
    rw [if_neg (by omega), ih (idx + 1) cutoff (by omega)]
    rfl

theorem collect_sequences_take (lines : List String) :
    ∀ (idx cutoff : Nat),
      collect_sequences lines idx cutoff =
        collect_sequences (lines.take (cutoff - idx)) idx cutoff := by
  induction lines with
  | nil => intro idx cutoff; simp [collect_sequences]
  | cons line rest ih =>
    intro idx cutoff
    by_cases hic : idx < cutoff
    · have hsub : cutoff - idx = (cutoff - (idx + 1)) + 1 := by omega
      rw [hsub, List.take_succ_cons]
      simp only [collect_sequences]
      rw [← ih (idx + 1) cutoff]
    · rw [collect_sequences_stop _ _ _ (by omega),
        Nat.sub_eq_zero_of_le (by omega), List.take_zero]
      rfl

theorem collect_sequences_length (lines : List String) :
    ∀ (idx cutoff : Nat),
      (collect_sequences lines idx cutoff).length ≤ cutoff - idx := by
  induction lines with
  | nil => intro idx cutoff; simp [collect_sequences]
  | cons line rest ih =>
    intro idx cutoff
    have hrec := ih (idx + 1) cutoff
    simp only [collect_sequences, List.length_append]
    split
    · next h => simp only [List.length_singleton]; omega
    · next h => simp only [List.length_nil]; omega

/-- C10: truncation is by raw `enumerate` index, headers counted: the
positive sequences depend only on the first `2·8000` lines of the positive
file (hence at most 16000 of them, however large the file), and the
negative sequences only on the first `2·(number of positive sequences)`
lines of the negative file. -/
theorem C10_truncation_by_raw_line_index (posLines negLines : List String) :
    collect_sequences posLines 0 (2 * 8000) =
      collect_sequences (posLines.take (2 * 8000)) 0 (2 * 8000) ∧
    (collect_sequences posLines 0 (2 * 8000)).length ≤ 16000 ∧
    collect_sequences negLines 0
        (2 * (collect_sequences posLines 0 (2 * 8000)).length) =
      collect_sequences
        (negLines.take
          (2 * (collect_sequences posLines 0 (2 * 8000)).length)) 0
        (2 * (collect_sequences posLines 0 (2 * 8000)).length) := by
  refine ⟨?_, ?_, ?_⟩
  · simpa using collect_sequences_take posLines 0 (2 * 8000)
  · simpa using collect_sequences_length posLines 0 (2 * 8000)
  · simpa using collect_sequences_take negLines 0
      (2 * (collect_sequences posLines 0 (2 * 8000)).length)
